import Mathlib

/-!
Verification of the replica-selection and quorum-orchestration core of a
distributed key-value store (frontend / router / node finder).

Shallow embedding conventions:
* `storage.ServiceAddr` (package storage is not part of the sources; the spec
  describes it as an opaque, totally-ordered, comparable identifier) is
  modelled as an arbitrary type `α` with a `LinearOrder`.
* `storage.RecordID` (fixed-width integer key) is modelled as `Nat`.
* Byte contents (`[]byte`, keyed by `string(data)` in Go maps) are modelled
  as `List Nat`; `string(data)` keying coincides with byte-list equality.
* Hash values (`uint64`, only ever compared) are modelled as `Nat`; the
  `Hasher` interface is a function parameter `hashfun : Nat → α → Nat`.
* `storage.ReplicationFactor` / `storage.MinRedundancy` (modelled from the
  spec: configured constants `N`, `W`) are `Nat` parameters `RF`, `W`.
* Go `error` values (opaque, distinguishable by equality per the spec) are
  the inductive `Err` below; the sentinel errors of the missing storage
  package are its first three constructors, and `nodeErr n` supplies
  countably many distinct opaque per-node errors.
* Go `time.Time` / `time.Duration` are modelled as `Int` (nanosecond
  counts); a Go map read of an absent key yields the zero `time.Time`,
  modelled as `Option Int` with default `0`.
-/

namespace DDSP

/-- Record keys (`storage.RecordID`). Modelled from the spec: fixed-width
integer identifier of a record. -/
abbrev RecordID := Nat

/-- Byte contents returned by per-node `Get` calls. -/
abbrev Data := List Nat

/-- Modelled from the spec: errors are opaque values distinguishable by
equality.  The three sentinel errors of the missing `storage` package plus
countably many opaque per-node errors. -/
inductive Err where
  | notEnoughDaemons
  | quorumNotReached
  | unknownDaemon
  | nodeErr (n : Nat)
deriving DecidableEq

instance {ε σ : Type} [DecidableEq ε] [DecidableEq σ] : DecidableEq (Except ε σ)
  | .error a, .error b =>
    if h : a = b then .isTrue (by rw [h])
    else .isFalse (fun hc => h (Except.error.inj hc))
  | .error _, .ok _ => .isFalse (fun hc => Except.noConfusion hc)
  | .ok _, .error _ => .isFalse (fun hc => Except.noConfusion hc)
  | .ok a, .ok b =>
    if h : a = b then .isTrue (by rw [h])
    else .isFalse (fun hc => h (Except.ok.inj hc))

/-- The `nodeInf` struct of `finder.go`: a hash value paired with the node
address it was computed from. -/
structure nodeInf (α : Type) where
  hash : Nat
  address : α
deriving DecidableEq

variable {α : Type}

/-- The comparison closure passed to `sort.Slice` in `finder.go`:
`less i j` holds iff entry `i` must come strictly before entry `j`
(descending hash, ties broken by descending address). -/
def finderLess [LinearOrder α] (p q : nodeInf α) : Prop :=
  if p.hash = q.hash then q.address < p.address else q.hash < p.hash

instance [LinearOrder α] : DecidableRel (@finderLess α _) := fun p q => by
  unfold finderLess; infer_instance

/-- The non-strict order induced by `finderLess`; a list is "sorted" in the
sense of Go's `sort.Slice` postcondition exactly when it is `Sorted` for
this relation. -/
def finderLE [LinearOrder α] (p q : nodeInf α) : Prop :=
  ¬ finderLess q p

instance [LinearOrder α] : DecidableRel (@finderLE α _) := fun p q => by
  unfold finderLE; infer_instance

theorem finderLE_iff [LinearOrder α] (p q : nodeInf α) :
    finderLE p q ↔ q.hash < p.hash ∨ (q.hash = p.hash ∧ q.address ≤ p.address) := by
  unfold finderLE finderLess
  by_cases h : q.hash = p.hash
  · rw [if_pos h, not_lt]
    constructor
    · intro hle
      exact Or.inr ⟨h, hle⟩
    · rintro (hlt | ⟨_, hle⟩)
      · exact absurd (h ▸ hlt) (lt_irrefl p.hash)
      · exact hle
  · rw [if_neg h, not_lt]
    constructor
    · intro hle
      exact Or.inl (lt_of_le_of_ne hle h)
    · rintro (hlt | ⟨he, _⟩)
      · exact le_of_lt hlt
      · exact absurd he h

instance [LinearOrder α] : IsTotal (nodeInf α) finderLE where
  total p q := by
    rw [finderLE_iff, finderLE_iff]
    rcases lt_trichotomy p.hash q.hash with h | h | h
    · exact Or.inr (Or.inl h)
    · rcases le_total q.address p.address with ha | ha
      · exact Or.inl (Or.inr ⟨h.symm, ha⟩)
      · exact Or.inr (Or.inr ⟨h, ha⟩)
    · exact Or.inl (Or.inl h)

instance [LinearOrder α] : IsTrans (nodeInf α) finderLE where
  trans p q r hpq hqr := by
    rw [finderLE_iff] at *
    rcases hpq with h1 | ⟨h1, a1⟩
    · rcases hqr with h2 | ⟨h2, _⟩
      · exact Or.inl (h2.trans h1)
      · exact Or.inl (h2 ▸ h1)
    · rcases hqr with h2 | ⟨h2, a2⟩
      · exact Or.inl (h1 ▸ h2)
      · exact Or.inr ⟨h2.trans h1, a2.trans a1⟩

instance [LinearOrder α] : IsAntisymm (nodeInf α) finderLE where
  antisymm p q hpq hqp := by
    rw [finderLE_iff] at hpq hqp
    cases p with
    | mk ph pa =>
      cases q with
      | mk qh qa =>
        simp only at hpq hqp
        rcases hpq with h1 | ⟨h1, a1⟩
        · rcases hqp with h2 | ⟨h2, _⟩
          · exact absurd (h1.trans h2) (lt_irrefl _)
          · exact absurd (h2 ▸ h1) (lt_irrefl _)
        · rcases hqp with h2 | ⟨h2, a2⟩
          · exact absurd (h1 ▸ h2) (lt_irrefl _)
          · have : pa = qa := le_antisymm a2 a1
            simp [h1, this]

/-- First implementation of `NodesFind` in `finder.go` (lines 84–120):
pair every candidate with `hash(k, node)`, sort with `sort.Slice` under
`finderLess`, and return the addresses of the first
`min(ReplicationFactor, len(nodes))` entries.  `sort.Slice` is modelled by
`List.insertionSort finderLE`: the comparator ties two entries only when
they are equal as values (equal hash and equal address), so every sorting
algorithm produces the same list of values and instability is
unobservable. -/
def NodesFind [LinearOrder α] (hashfun : RecordID → α → Nat) (RF : Nat)
    (k : RecordID) (nodes : List α) : List α :=
  let hashes := nodes.map (fun node => nodeInf.mk (hashfun k node) node)
  let sorted := List.insertionSort finderLE hashes
  let l := if hashes.length < RF then hashes.length else RF
  (sorted.take l).map nodeInf.address

/-- Second implementation of `NodesFind` in `finder.go` (lines 211–247):
identical except the pair list is built by an indexed loop (same traversal
order) and the sort is `sort.SliceStable`, modelled by the stable
`List.mergeSort`. -/
def NodesFind₂ [LinearOrder α] (hashfun : RecordID → α → Nat) (RF : Nat)
    (k : RecordID) (nodes : List α) : List α :=
  let hashes := nodes.map (fun node => nodeInf.mk (hashfun k node) node)
  let sorted := hashes.mergeSort (fun p q => decide (finderLE p q))
  let leng := if hashes.length < RF then hashes.length else RF
  (sorted.take leng).map nodeInf.address

/-- The ordering of the spec's words (§4.1): candidates sorted by strictly
descending `hash(key, node)`, exact hash ties broken by descending
node-address ordering. -/
def specLE (hashfun : RecordID → α → Nat) [LinearOrder α] (k : RecordID)
    (a b : α) : Prop :=
  hashfun k b < hashfun k a ∨ (hashfun k b = hashfun k a ∧ b ≤ a)

instance [LinearOrder α] (hashfun : RecordID → α → Nat) (k : RecordID) :
    DecidableRel (specLE hashfun k) := fun a b => by
  unfold specLE; infer_instance

/-- The selection the spec describes: the prefix of length
`min(ReplicationFactor, |candidates|)` of the candidates sorted by the
spec's descending order. -/
def specSelect [LinearOrder α] (hashfun : RecordID → α → Nat) (RF : Nat)
    (k : RecordID) (nodes : List α) : List α :=
  (List.insertionSort (specLE hashfun k) nodes).take (min RF nodes.length)

/-! ### Router (`router.go`) -/

/-- The `Config` struct of `router.go` restricted to the fields the router
logic reads (the listening address is irrelevant to the claims; the
`NodesFinder` is passed as the `hashfun` parameter of the operations). -/
structure RouterConfig (α : Type) where
  Nodes : List α
  ForgetTimeout : Int

/-- The `Router` struct of `router.go`: configuration plus the
`Heartbeat_arr` map from node address to last-heartbeat time.  A Go map
read of an absent key yields the zero `time.Time`; the map is modelled as
an `Option Int`-valued function, absent keys being `none`. -/
structure Router (α : Type) where
  conf : RouterConfig α
  Heartbeat_arr : α → Option Int

/-- The value `r.Heartbeat_arr[node]` of a Go map read: the stored time, or
the zero `time.Time` when the node was never heartbeated. -/
def hbTime (r : Router α) (node : α) : Int :=
  (r.Heartbeat_arr node).getD 0

/-- `New` of `router.go` (lines 46–52): fail with `ErrNotEnoughDaemons`
when fewer than `ReplicationFactor` nodes are configured, otherwise build a
router with an empty heartbeat map. -/
def RouterNew (RF : Nat) (cfg : RouterConfig α) : Except Err (Router α) :=
  if cfg.Nodes.length < RF then .error .notEnoughDaemons
  else .ok { conf := cfg, Heartbeat_arr := fun _ => none }

/-- `Heartbeat` of `router.go` (lines 61–73): scan the configured node
list; on a match store the current time under the node and return success,
otherwise return `ErrUnknownDaemon`.  The linear scan is membership in the
configured list; `now` is the value of `time.Now()` at the call. -/
def Router.Heartbeat [DecidableEq α] (r : Router α) (node : α) (now : Int) :
    Router α × Option Err :=
  if node ∈ r.conf.Nodes then
    ({ r with
        Heartbeat_arr := fun a => if a = node then some now else r.Heartbeat_arr a },
      none)
  else (r, some .unknownDaemon)

/-- The indexed filtering loop of `Router.NodesFind` (`router.go` lines
87–95).  The Go loop evaluates `time.Now()` afresh in every iteration, so
the model receives the sequence of observed timestamps as `nowAt : Nat →
Int`, indexed by loop iteration. -/
def filterLive (r : Router α) (nowAt : Nat → Int) : Nat → List α → List α
  | _, [] => []
  | i, a :: rest =>
    if nowAt i - hbTime r a < r.conf.ForgetTimeout then
      a :: filterLive r nowAt (i + 1) rest
    else
      filterLive r nowAt (i + 1) rest

/-- `Router.NodesFind` of `router.go` (lines 83–101): run the node finder
over the full configured node list, keep the nodes whose heartbeat is
younger than `ForgetTimeout` at the moment of their own check, and fail
with `ErrNotEnoughDaemons` when fewer than `MinRedundancy` survive. -/
def Router.NodesFindAt [LinearOrder α] (hashfun : RecordID → α → Nat)
    (RF W : Nat) (r : Router α) (k : RecordID) (nowAt : Nat → Int) :
    Except Err (List α) :=
  let nodes := NodesFind hashfun RF k r.conf.Nodes
  let ret := filterLive r nowAt 0 nodes
  if ret.length < W then .error .notEnoughDaemons else .ok ret

/-- `List` of `router.go` (lines 106–108). -/
def Router.ListAll (r : Router α) : List α :=
  r.conf.Nodes

/-! ### Frontend (`frontend.go`) -/

/-- Aggregation of `putDel` (`frontend.go` lines 53–96) after the fan-out:
`errs` is the sequence of per-node results read from the `errs` channel in
arrival order (`none` = the per-node call returned `nil`).  Successes are
counted, failures are grouped by error value (`errMap`); if the success
count reaches `MinRedundancy` the operation succeeds, otherwise the first
error whose count reaches `MinRedundancy` is surfaced, and failing that
`ErrQuorumNotReached`.  Go iterates `errMap` in an unspecified order; the
model fixes first-occurrence order (`dedup`), and the theorems only use
facts that hold for every iteration order. -/
def putDelAgg (W : Nat) (errs : List (Option Err)) : Option Err :=
  let count := errs.count none
  if W ≤ count then none
  else
    let failures := errs.filterMap id
    match failures.dedup.find? (fun e => decide (W ≤ failures.count e)) with
    | some e => some e
    | none => some .quorumNotReached

/-- `putDel` of `frontend.go` (lines 53–96): propagate a router error,
fail fast with `ErrNotEnoughDaemons` when fewer than `MinRedundancy`
target nodes were returned, otherwise wait for all per-node calls and
aggregate with `putDelAgg`. -/
def putDel (W : Nat) (routerRes : Except Err (List α))
    (errs : List (Option Err)) : Option Err :=
  match routerRes with
  | .error e => some e
  | .ok nodes =>
    if nodes.length < W then some .notEnoughDaemons
    else putDelAgg W errs

/-- One per-node `Get` result as read from the `datachan` channel of
`frontend.go`: either returned byte content or an error. -/
inductive NodeGetRes where
  | val (d : Data)
  | err (e : Err)
deriving DecidableEq

/-- Pointwise update of a counting map (a Go `map[κ]int` write; absent
keys read as `0` are folded into the `κ → Nat` representation). -/
def upd {κ : Type} [DecidableEq κ] (f : κ → Nat) (key : κ) (v : Nat) :
    κ → Nat :=
  fun x => if x = key then v else f x

/-- The aggregation loop of `Get` (`frontend.go` lines 159–175) over the
results in arrival order: on content `d`, increment `dataMap[d]` and
return `d` as soon as its count reaches `MinRedundancy`; on an error `e`,
increment `errMap[e]` and return `e` as soon as its count reaches
`MinRedundancy`; if the results are exhausted, `ErrQuorumNotReached`. -/
def getLoop (W : Nat) (dm : Data → Nat) (em : Err → Nat) :
    List NodeGetRes → Except Err Data
  | [] => .error .quorumNotReached
  | .val d :: rest =>
    if W ≤ dm d + 1 then .ok d
    else getLoop W (upd dm d (dm d + 1)) em rest
  | .err e :: rest =>
    if W ≤ em e + 1 then .error e
    else getLoop W dm (upd em e (em e + 1)) rest

/-- The `Get` aggregation started from the empty `dataMap` / `errMap`. -/
def getAggregate (W : Nat) (results : List NodeGetRes) : Except Err Data :=
  getLoop W (fun _ => 0) (fun _ => 0) results

/-- The mutable state of the `Frontend` struct: `nodes` is `none` while
the `sync.Once` has not completed, and `some ns` once the node list `ns`
has been fetched and cached. -/
structure Frontend (α : Type) where
  nodes : Option (List α)

/-- `New` of `frontend.go` (lines 49–51): `nodes` is nil and the
`sync.Once` has not fired. -/
def FrontendNew : Frontend α :=
  { nodes := none }

/-- The bootstrap retry loop inside `fe.once.Do` (`frontend.go` lines
129–136): issue `List()` requests until one succeeds, sleeping
`InitTimeout` between attempts.  `tries` is the sequence of outcomes of
the successive `RC.List` calls; the loop consumes them until the first
success.  `none` means the loop is still running (no successful attempt
was available), in which case `Get` has not returned — in particular no
fetch error can ever reach the caller. -/
def listLoop : List (Except Err (List α)) → Option (List α)
  | [] => none
  | .error _ :: rest => listLoop rest
  | .ok ns :: _ => some ns

/-- The `fe.once.Do` bootstrap step at the top of `Get` (`frontend.go`
lines 128–137): if the node list is already cached, no `List` request is
issued and the cache is returned; otherwise run the retry loop and cache
its result.  Returns the updated frontend and the node list, or `none`
while the retry loop has not yet succeeded. -/
def Frontend.getInit (fe : Frontend α)
    (tries : List (Except Err (List α))) : Option (Frontend α × List α) :=
  match fe.nodes with
  | some ns => some (fe, ns)
  | none =>
    match listLoop tries with
    | some ns => some ({ nodes := some ns }, ns)
    | none => none

/-- `Get` of `frontend.go` (lines 127–179): bootstrap the cached node
list, select nodes with the finder, fail fast with `ErrNotEnoughDaemons`
below `MinRedundancy`, then aggregate the per-node results (given in
arrival order) with `getAggregate`.  `none` again means the bootstrap
retry loop has not yet succeeded. -/
def Frontend.Get [LinearOrder α] (hashfun : RecordID → α → Nat)
    (RF W : Nat) (fe : Frontend α) (k : RecordID)
    (tries : List (Except Err (List α))) (arrival : List NodeGetRes) :
    Option (Frontend α × Except Err Data) :=
  match fe.getInit tries with
  | none => none
  | some (fe₁, ns) =>
    let sel := NodesFind hashfun RF k ns
    if sel.length < W then some (fe₁, .error .notEnoughDaemons)
    else some (fe₁, getAggregate W arrival)

/-! ### Helper lemmas about the router's liveness filtering -/

theorem filterLive_const (r : Router α) (now : Int) :
    ∀ (i : Nat) (l : List α),
      filterLive r (fun _ => now) i l =
        l.filter (fun a => decide (now - hbTime r a < r.conf.ForgetTimeout)) := by
  intro i l
  induction l generalizing i with
  | nil => simp [filterLive]
  | cons a rest ih =>
    by_cases h : now - hbTime r a < r.conf.ForgetTimeout
    · simp [filterLive, h, List.filter_cons, ih]
    · simp [filterLive, h, List.filter_cons, ih]

/-- The liveness filtering the spec describes (§4.2 `FindLiveReplicas`):
the selector's candidates over the full configured node set, restricted to
those whose last heartbeat is younger than `ForgetTimeout` at the single
snapshot `now`, in selector order. -/
def liveFilter [LinearOrder α] (hashfun : RecordID → α → Nat) (RF : Nat)
    (r : Router α) (k : RecordID) (now : Int) : List α :=
  (NodesFind hashfun RF k r.conf.Nodes).filter
    (fun a => decide (now - hbTime r a < r.conf.ForgetTimeout))

/-- Claim C5: with a single snapshot `now` (taken at least `ForgetTimeout`
after the zero timestamp), the router's `NodesFind` returns exactly the
selector's candidates filtered to live nodes in selector order, excludes
every node without a recorded heartbeat, and fails with
`ErrNotEnoughDaemons` exactly when fewer than `MinRedundancy` nodes are
kept. -/
theorem router_nodesFind_live_filter [LinearOrder α]
    (hashfun : RecordID → α → Nat) (RF W : Nat) (r : Router α)
    (k : RecordID) (now : Int) (hft : r.conf.ForgetTimeout ≤ now) :
    Router.NodesFindAt hashfun RF W r k (fun _ => now) =
      (if (liveFilter hashfun RF r k now).length < W then
        .error .notEnoughDaemons
      else .ok (liveFilter hashfun RF r k now)) ∧
    (∀ a, r.Heartbeat_arr a = none → a ∉ liveFilter hashfun RF r k now) ∧
    (Router.NodesFindAt hashfun RF W r k (fun _ => now) =
        .error .notEnoughDaemons ↔
      (liveFilter hashfun RF r k now).length < W) := by
  have hmain : Router.NodesFindAt hashfun RF W r k (fun _ => now) =
      (if (liveFilter hashfun RF r k now).length < W then
        .error .notEnoughDaemons
      else .ok (liveFilter hashfun RF r k now)) := by
    unfold Router.NodesFindAt liveFilter
    simp only [filterLive_const]
  refine ⟨hmain, ?_, ?_⟩
  · intro a ha hmem
    have := List.of_mem_filter hmem
    have hlt : now - hbTime r a < r.conf.ForgetTimeout := of_decide_eq_true this
    rw [hbTime, ha] at hlt
    simp only [Option.getD_none] at hlt
    omega
  · rw [hmain]
    by_cases h : (liveFilter hashfun RF r k now).length < W
    · simp [h]
    · simp [h]

/-- Claim C5 witness: a concrete router where the live node is kept and
the dead and never-heartbeated nodes are dropped. -/
theorem router_nodesFind_live_filter_witness :
    Router.NodesFindAt (fun _ n => n) 2 1
      (⟨⟨[1, 2], 5⟩, fun a => if a = 2 then some 3 else none⟩ : Router Nat)
      0 (fun _ => 6) = .ok [2] := by
  have h := (router_nodesFind_live_filter (fun _ n => n) 2 1
    (⟨⟨[1, 2], 5⟩, fun a => if a = 2 then some 3 else none⟩ : Router Nat)
    0 6 (by decide)).1
  rw [h]
  decide

/-- The concrete router of the C6 counterexample: three nodes, selector
order `[3, 2, 1]`; nodes `3` and `1` were heartbeated at time `5`, node
`2` never; `ForgetTimeout = 5`. -/
def r₆ : Router Nat :=
  ⟨⟨[1, 2, 3], 5⟩,
    fun a => if a = 3 then some 5 else if a = 1 then some 5 else none⟩

/-- Claim C6 (refuted — the code calls `time.Now()` inside the loop, once
per node): with per-iteration timestamps `7, 7, 10` the router returns
`[3]`, an output that no single-snapshot run can produce, because nodes
`3` and `1` have the same heartbeat time and are therefore live or dead
together under any single `now`. -/
theorem router_per_node_now_not_snapshot :
    Router.NodesFindAt (fun _ n => n) 3 1 r₆ 0
        (fun i => if i = 0 then 7 else if i = 1 then 7 else 10) = .ok [3] ∧
    ∀ now : Int,
      Router.NodesFindAt (fun _ n => n) 3 1 r₆ 0 (fun _ => now) ≠ .ok [3] := by
  constructor
  · decide
  · intro now h
    have hsel : NodesFind (fun _ n => n) 3 0 r₆.conf.Nodes = [3, 2, 1] := by decide
    have key : List.filter
        (fun a => decide (now - hbTime r₆ a < r₆.conf.ForgetTimeout))
        [3, 2, 1] ≠ [3] := by
      have e3 : hbTime r₆ 3 = 5 := rfl
      have e2 : hbTime r₆ 2 = 0 := rfl
      have e1 : hbTime r₆ 1 = 5 := rfl
      have e0 : r₆.conf.ForgetTimeout = 5 := rfl
      simp only [List.filter_cons, List.filter_nil, e3, e2, e1, e0]
      rcases lt_or_le now 5 with h5 | h5
      · have d3 : now - (5 : Int) < 5 := by omega
        have d2 : now < (5 : Int) := by omega
        simp [d3, d2]
      · rcases lt_or_le now 10 with h10 | h10
        · have d3 : now - (5 : Int) < 5 := by omega
          have d2 : ¬ now < (5 : Int) := by omega
          simp [d3, d2]
        · have d3 : ¬ now - (5 : Int) < 5 := by omega
          have d2 : ¬ now < (5 : Int) := by omega
          simp [d3, d2]
    unfold Router.NodesFindAt at h
    rw [hsel] at h
    simp only [filterLive_const] at h
    by_cases hlen : (List.filter
        (fun a => decide (now - hbTime r₆ a < r₆.conf.ForgetTimeout))
        [3, 2, 1]).length < 1
    · rw [if_pos hlen] at h
      exact Except.noConfusion h
    · rw [if_neg hlen] at h
      exact key (Except.ok.inj h)

/-- Claim C7: heartbeating a node outside the configured set fails with
`ErrUnknownDaemon` and leaves the router completely unchanged; heartbeating
a configured node succeeds, records the current time for that node and
changes nothing else. -/
theorem heartbeat_spec [DecidableEq α] (r : Router α) (node : α) (now : Int) :
    (node ∉ r.conf.Nodes →
      r.Heartbeat node now = (r, some .unknownDaemon)) ∧
    (node ∈ r.conf.Nodes →
      (r.Heartbeat node now).2 = none ∧
      (r.Heartbeat node now).1.conf = r.conf ∧
      (r.Heartbeat node now).1.Heartbeat_arr node = some now ∧
      ∀ a, a ≠ node →
        (r.Heartbeat node now).1.Heartbeat_arr a = r.Heartbeat_arr a) := by
  constructor
  · intro h
    simp [Router.Heartbeat, h]
  · intro h
    refine ⟨by simp [Router.Heartbeat, h], by simp [Router.Heartbeat, h],
      by simp [Router.Heartbeat, h], ?_⟩
    intro a ha
    simp [Router.Heartbeat, h, ha]

/-- Claim C7 witness: on a concrete two-node router, a heartbeat from the
unknown node `7` is rejected without a state change, and a heartbeat from
node `1` records time `3`. -/
theorem heartbeat_spec_witness :
    (⟨⟨[1, 2], 5⟩, fun _ => none⟩ : Router Nat).Heartbeat 7 3 =
      ((⟨⟨[1, 2], 5⟩, fun _ => none⟩ : Router Nat), some .unknownDaemon) ∧
    ((⟨⟨[1, 2], 5⟩, fun _ => none⟩ : Router Nat).Heartbeat 1 3).1.Heartbeat_arr
      1 = some 3 :=
  ⟨(heartbeat_spec (⟨⟨[1, 2], 5⟩, fun _ => none⟩ : Router Nat) 7 3).1
      (by decide),
    ((heartbeat_spec (⟨⟨[1, 2], 5⟩, fun _ => none⟩ : Router Nat) 1 3).2
      (by decide)).2.2.1⟩

/-- Claim C9: the router constructor fails with `ErrNotEnoughDaemons`
exactly when fewer than `ReplicationFactor` nodes are configured; a
successfully constructed router carries the given configuration and an
empty heartbeat map, so (for any snapshot at least `ForgetTimeout` past
the zero timestamp and any positive `MinRedundancy`) no node is live and
`NodesFind` fails. -/
theorem router_new_spec [LinearOrder α] (RF : Nat) (cfg : RouterConfig α) :
    (RouterNew RF cfg = .error .notEnoughDaemons ↔ cfg.Nodes.length < RF) ∧
    (∀ r : Router α, RouterNew RF cfg = .ok r →
      r.conf = cfg ∧ (∀ a, r.Heartbeat_arr a = none) ∧
      ∀ (hashfun : RecordID → α → Nat) (W : Nat) (k : RecordID) (now : Int),
        cfg.ForgetTimeout ≤ now → 1 ≤ W →
        Router.NodesFindAt hashfun RF W r k (fun _ => now) =
          .error .notEnoughDaemons) := by
  constructor
  · by_cases h : cfg.Nodes.length < RF
    · simp [RouterNew, h]
    · simp [RouterNew, h]
  · intro r hr
    have hr' : r = { conf := cfg, Heartbeat_arr := fun _ => none } := by
      by_cases h : cfg.Nodes.length < RF
      · simp [RouterNew, h] at hr
      · simp [RouterNew, h] at hr
        exact hr.symm
    subst hr'
    refine ⟨rfl, fun _ => rfl, ?_⟩
    intro hashfun W k now hnow hW
    unfold Router.NodesFindAt
    simp only [filterLive_const]
    have hfilter : ∀ l : List α,
        l.filter (fun a =>
          decide (now - hbTime { conf := cfg, Heartbeat_arr := fun _ => none } a <
            ({ conf := cfg, Heartbeat_arr := fun _ => none } : Router α).conf.ForgetTimeout)) = [] := by
      intro l
      apply List.filter_eq_nil_iff.mpr
      intro a _
      simp only [hbTime, Option.getD_none, decide_eq_true_eq]
      omega
    rw [hfilter]
    simp [hW]
    omega

/-- Claim C9 witness: one node with `ReplicationFactor = 2` is rejected. -/
theorem router_new_spec_witness :
    RouterNew 2 (⟨[1], 5⟩ : RouterConfig Nat) = .error .notEnoughDaemons :=
  (router_new_spec 2 (⟨[1], 5⟩ : RouterConfig Nat)).1.mpr (by decide)

/-! ### Put/Del quorum aggregation (claim C1) -/

theorem perm_count_eq {β : Type} [BEq β] {l₁ l₂ : List β} (h : l₁.Perm l₂)
    (b : β) : l₁.count b = l₂.count b := by
  simp only [List.count]
  exact h.countP_eq _

theorem putDelAgg_eq_none_iff (W : Nat) (errs : List (Option Err)) :
    putDelAgg W errs = none ↔ W ≤ errs.count none := by
  unfold putDelAgg
  by_cases hs : W ≤ errs.count none
  · simp [hs]
  · simp only [if_neg hs]
    split
    · simp [hs]
    · simp [hs]

/-- Claim C1: for a node list actually returned by the router (hence of
length at least `MinRedundancy`) and per-node outcomes `job`, read off the
channel in an arbitrary arrival order `errs`, `putDel` succeeds iff at
least `MinRedundancy` calls succeeded; otherwise it surfaces an error that
occurred at least `MinRedundancy` times among the failures when one
exists, and `ErrQuorumNotReached` when none does. -/
theorem putDel_quorum_classification (W : Nat) (nodes : List α)
    (job : α → Option Err) (errs : List (Option Err))
    (hperm : errs.Perm (nodes.map job)) (hlen : W ≤ nodes.length) :
    (putDel W (.ok nodes) errs = none ↔ W ≤ (nodes.map job).count none) ∧
    ((nodes.map job).count none < W →
      (∃ e, W ≤ ((nodes.map job).filterMap id).count e) →
      ∃ e, putDel W (.ok nodes) errs = some e ∧
        W ≤ ((nodes.map job).filterMap id).count e) ∧
    ((nodes.map job).count none < W →
      (∀ e, ((nodes.map job).filterMap id).count e < W) →
      putDel W (.ok nodes) errs = some .quorumNotReached) := by
  have hagg : putDel W (.ok nodes) errs = putDelAgg W errs := by
    simp [putDel, Nat.not_lt.mpr hlen]
  have hcount : errs.count none = (nodes.map job).count none :=
    perm_count_eq hperm none
  have hfc : ∀ e, (errs.filterMap id).count e =
      ((nodes.map job).filterMap id).count e :=
    fun e => perm_count_eq (hperm.filterMap id) e
  refine ⟨?_, ?_, ?_⟩
  · rw [hagg, putDelAgg_eq_none_iff, hcount]
  · intro hsucc hex
    obtain ⟨e, he⟩ := hex
    have hs : ¬ W ≤ errs.count none := by rw [hcount]; omega
    have hWpos : 1 ≤ W := by omega
    have hmem : e ∈ errs.filterMap id := by
      have : 0 < (errs.filterMap id).count e := by
        rw [hfc e]; omega
      exact List.count_pos_iff.mp this
    have hisSome : (List.find?
        (fun e => decide (W ≤ (errs.filterMap id).count e))
        (errs.filterMap id).dedup).isSome := by
      rw [List.find?_isSome]
      exact ⟨e, List.mem_dedup.mpr hmem, decide_eq_true (by rw [hfc e]; omega)⟩
    obtain ⟨e', hfind⟩ := Option.isSome_iff_exists.mp hisSome
    have hp := List.find?_some hfind
    simp only [decide_eq_true_eq] at hp
    refine ⟨e', ?_, by rw [← hfc e']; exact hp⟩
    rw [hagg]
    unfold putDelAgg
    rw [if_neg hs]
    simp only [hfind]
  · intro hsucc hall
    have hs : ¬ W ≤ errs.count none := by rw [hcount]; omega
    have hfind : List.find?
        (fun e => decide (W ≤ (errs.filterMap id).count e))
        (errs.filterMap id).dedup = none := by
      rw [List.find?_eq_none]
      intro e _
      simp only [decide_eq_true_eq, not_le]
      rw [hfc e]
      exact hall e
    rw [hagg]
    unfold putDelAgg
    rw [if_neg hs]
    simp only [hfind]

/-- Claim C1 witness: five nodes, three successes, two distinct failures —
the operation succeeds with `W = 3`. -/
theorem putDel_quorum_classification_witness :
    putDel 3 (.ok ([1, 2, 3, 4, 5] : List Nat))
      ([1, 2, 3, 4, 5].map
        (fun n => if n ≤ 3 then none else some (.nodeErr n))) = none := by
  have h := (putDel_quorum_classification 3 ([1, 2, 3, 4, 5] : List Nat)
    (fun n => if n ≤ 3 then none else some (.nodeErr n))
    ([1, 2, 3, 4, 5].map (fun n => if n ≤ 3 then none else some (.nodeErr n)))
    (List.Perm.refl _) (by decide)).1
  exact h.mpr (by decide)

/-! ### Bootstrap of the cached node list (claim C8) -/

theorem listLoop_eq_some_iff (tries : List (Except Err (List α)))
    (ns : List α) :
    listLoop tries = some ns ↔
      ∃ pre post, tries = pre ++ .ok ns :: post ∧
        ∀ x ∈ pre, ∃ e, x = .error e := by
  induction tries with
  | nil =>
    simp only [listLoop]
    constructor
    · intro h
      exact Option.noConfusion h
    · rintro ⟨pre, post, hdec, -⟩
      exact absurd hdec (by simp)
  | cons t rest ih =>
    cases t with
    | ok ms =>
      simp only [listLoop]
      constructor
      · intro h
        refine ⟨[], rest, ?_, by simp⟩
        have : ms = ns := Option.some.inj h
        rw [this]
        simp
      · rintro ⟨pre, post, hdec, herr⟩
        cases pre with
        | nil =>
          simp only [List.nil_append, List.cons.injEq] at hdec
          rw [Except.ok.inj hdec.1]
        | cons x pre' =>
          simp only [List.cons_append, List.cons.injEq] at hdec
          obtain ⟨e, he⟩ := herr x (by simp)
          rw [← hdec.1] at he
          exact Except.noConfusion he
    | error e =>
      simp only [listLoop]
      rw [ih]
      constructor
      · rintro ⟨pre, post, hdec, herr⟩
        refine ⟨.error e :: pre, post, by simp [hdec], ?_⟩
        intro x hx
        rcases List.mem_cons.mp hx with hx | hx
        · exact ⟨e, hx⟩
        · exact herr x hx
      · rintro ⟨pre, post, hdec, herr⟩
        cases pre with
        | nil =>
          simp only [List.nil_append, List.cons.injEq] at hdec
          exact absurd hdec.1 (fun hc => Except.noConfusion hc)
        | cons x pre' =>
          simp only [List.cons_append, List.cons.injEq] at hdec
          refine ⟨pre', post, hdec.2, ?_⟩
          intro y hy
          exact herr y (List.mem_cons.mpr (Or.inr hy))

/-- Claim C8: when the first `Get` on a fresh frontend completes its
bootstrap with node list `ns`, that list is the payload of the first
successful `List` fetch and every earlier attempt failed and was swallowed
(never surfaced: `getInit` returns no error by type); the list is cached,
and every later call performs no fetch at all — its result is the cached
pair for every sequence of would-be fetch outcomes, leaving the state
unchanged. -/
theorem get_bootstrap_once (tries : List (Except Err (List α)))
    (fe₁ : Frontend α) (ns : List α)
    (h : (FrontendNew : Frontend α).getInit tries = some (fe₁, ns)) :
    (∃ pre post, tries = pre ++ .ok ns :: post ∧
      ∀ x ∈ pre, ∃ e, x = .error e) ∧
    fe₁.nodes = some ns ∧
    ∀ tries₂, fe₁.getInit tries₂ = some (fe₁, ns) := by
  cases hl : listLoop tries with
  | none =>
    rw [Frontend.getInit] at h
    simp only [FrontendNew, hl] at h
    exact Option.noConfusion h
  | some ms =>
    rw [Frontend.getInit] at h
    simp only [FrontendNew, hl, Option.some.injEq, Prod.mk.injEq] at h
    obtain ⟨hfe, hms⟩ := h
    subst hms
    refine ⟨(listLoop_eq_some_iff tries ms).mp hl, ?_, ?_⟩
    · rw [← hfe]
    · intro tries₂
      rw [← hfe, Frontend.getInit]

/-- Claim C8 witness: a failing first attempt followed by a success — the
cache holds the successful payload and later calls never fetch again. -/
theorem get_bootstrap_once_witness :
    (⟨some [5]⟩ : Frontend Nat).nodes = some [5] ∧
    ∀ tries₂, (⟨some [5]⟩ : Frontend Nat).getInit tries₂ =
      some (⟨some [5]⟩, [5]) := by
  have h := get_bootstrap_once [.error .unknownDaemon, .ok [5]]
    (⟨some [5]⟩ : Frontend Nat) [5] (by rfl)
  exact ⟨h.2.1, h.2.2⟩

/-! ### Node selector contract (claims C3, C4, C10) -/

theorem NodesFind_unfolded [LinearOrder α] (hashfun : RecordID → α → Nat)
    (RF : Nat) (k : RecordID) (nodes : List α) :
    NodesFind hashfun RF k nodes =
      ((List.insertionSort finderLE
          (nodes.map (fun node => nodeInf.mk (hashfun k node) node))).take
        (if nodes.length < RF then nodes.length else RF)).map
        nodeInf.address := by
  simp only [NodesFind, List.length_map]

/-- Claim C3: for pairwise-distinct candidates, `NodesFind` returns
exactly `min(ReplicationFactor, |candidates|)` pairwise-distinct nodes
drawn from the candidate list, and (being a pure function of its
arguments) repeated calls with the same inputs return the identical
ordered result. -/
theorem NodesFind_select_contract [LinearOrder α]
    (hashfun : RecordID → α → Nat) (RF : Nat) (k : RecordID)
    (nodes : List α) (hnd : nodes.Nodup) :
    (NodesFind hashfun RF k nodes).length = min RF nodes.length ∧
    (∀ a ∈ NodesFind hashfun RF k nodes, a ∈ nodes) ∧
    (NodesFind hashfun RF k nodes).Nodup ∧
    NodesFind hashfun RF k nodes = NodesFind hashfun RF k nodes := by
  rw [NodesFind_unfolded]
  set g : α → nodeInf α := fun node => nodeInf.mk (hashfun k node) node with hg
  set hashes := nodes.map g with hh
  set sorted := List.insertionSort finderLE hashes with hsorted
  have hperm : sorted.Perm hashes := List.perm_insertionSort _ _
  have hslen : sorted.length = nodes.length := by
    rw [hperm.length_eq, hh, List.length_map]
  have hmapaddr : hashes.map nodeInf.address = nodes := by
    rw [hh, List.map_map,
      show nodeInf.address ∘ g = id from funext fun x => rfl]
    exact List.map_id nodes
  set l := if nodes.length < RF then nodes.length else RF with hldef
  have hlmin : l = min RF nodes.length := by
    rw [hldef]; split <;> omega
  refine ⟨?_, ?_, ?_, rfl⟩
  · rw [List.length_map, List.length_take, hslen, hlmin]
    omega
  · intro a ha
    obtain ⟨p, hp, hpa⟩ := List.mem_map.mp ha
    have hps : p ∈ sorted := List.mem_of_mem_take hp
    have hph : p ∈ hashes := hperm.mem_iff.mp hps
    obtain ⟨b, hb, hgb⟩ := List.mem_map.mp hph
    rw [← hpa, ← hgb]
    exact hb
  · have hpa : (sorted.map nodeInf.address).Perm nodes := by
      rw [← hmapaddr]
      exact hperm.map nodeInf.address
    have hnds : (sorted.map nodeInf.address).Nodup := hpa.nodup_iff.mpr hnd
    rw [List.map_take]
    exact List.Nodup.sublist (List.take_sublist _ _) hnds

/-- Claim C3 witness: three distinct candidates, `ReplicationFactor = 2`. -/
theorem NodesFind_select_contract_witness :
    (NodesFind (fun _ n => n) 2 0 ([1, 2, 3] : List Nat)).length = min 2 3 :=
  (NodesFind_select_contract (fun _ n => n) 2 0 [1, 2, 3] (by decide)).1

theorem orderedInsert_map_of_iff {β γ : Type} (r : γ → γ → Prop)
    (s : β → β → Prop) [DecidableRel r] [DecidableRel s] (g : β → γ)
    (H : ∀ a b, r (g a) (g b) ↔ s a b) (a : β) (l : List β) :
    List.orderedInsert r (g a) (l.map g) =
      (List.orderedInsert s a l).map g := by
  induction l with
  | nil => simp [List.orderedInsert]
  | cons b t ih =>
    simp only [List.map_cons, List.orderedInsert]
    by_cases h : s a b
    · rw [if_pos h, if_pos ((H a b).mpr h), List.map_cons, List.map_cons]
    · rw [if_neg h, if_neg (fun hc => h ((H a b).mp hc)), List.map_cons, ih]

theorem insertionSort_map_of_iff {β γ : Type} (r : γ → γ → Prop)
    (s : β → β → Prop) [DecidableRel r] [DecidableRel s] (g : β → γ)
    (H : ∀ a b, r (g a) (g b) ↔ s a b) (l : List β) :
    List.insertionSort r (l.map g) = (List.insertionSort s l).map g := by
  induction l with
  | nil => simp [List.insertionSort]
  | cons b t ih =>
    simp only [List.map_cons, List.insertionSort]
    rw [ih, orderedInsert_map_of_iff r s g H]

/-- Claim C4: `NodesFind` returns exactly the prefix of length
`min(ReplicationFactor, |candidates|)` of the candidates sorted by
strictly descending hash, exact hash ties broken by descending address
(`specSelect`, written from the spec's words). -/
theorem NodesFind_eq_specSelect [LinearOrder α]
    (hashfun : RecordID → α → Nat) (RF : Nat) (k : RecordID)
    (nodes : List α) :
    NodesFind hashfun RF k nodes = specSelect hashfun RF k nodes := by
  rw [NodesFind_unfolded]
  unfold specSelect
  set g : α → nodeInf α := fun node => nodeInf.mk (hashfun k node) node with hg
  have H : ∀ a b : α, finderLE (g a) (g b) ↔ specLE hashfun k a b :=
    fun a b => finderLE_iff (g a) (g b)
  rw [insertionSort_map_of_iff finderLE (specLE hashfun k) g H,
    ← List.map_take, List.map_map,
    show nodeInf.address ∘ g = id from funext fun x => rfl, List.map_id]
  congr 1
  split <;> omega

/-- Claim C10: the two `NodesFind` implementations of `finder.go` (the
`sort.Slice` one and the `sort.SliceStable` one) compute the same ordered
address list on every key and candidate list: the comparator ties two
entries only when they are equal as values, so stability cannot be
observed and both sorts agree. -/
theorem NodesFind_impls_agree [LinearOrder α]
    (hashfun : RecordID → α → Nat) (RF : Nat) (k : RecordID)
    (nodes : List α) :
    NodesFind hashfun RF k nodes = NodesFind₂ hashfun RF k nodes := by
  simp only [NodesFind, NodesFind₂]
  rw [List.mergeSort_eq_insertionSort finderLE]

/-! ### Get aggregation (claim C2) -/

theorem upd_same {κ : Type} [DecidableEq κ] (f : κ → Nat) (key : κ) (v : Nat) :
    upd f key v key = v := by
  simp [upd]

theorem upd_other {κ : Type} [DecidableEq κ] (f : κ → Nat) (key : κ) (v : Nat)
    (x : κ) (h : x ≠ key) : upd f key v x = f x := by
  simp [upd, h]

/-- If the aggregation loop answers content `d`, then at some point `n` of
the arrival sequence `d`'s running count reached the threshold, and at
every earlier point no content count and no error count had reached it:
`d` is the first value to reach the threshold. -/
theorem getLoop_ok_first (W : Nat) :
    ∀ (rs : List NodeGetRes) (dm : Data → Nat) (em : Err → Nat) (d : Data),
      (∀ x, dm x < W) → (∀ e, em e < W) → getLoop W dm em rs = .ok d →
      ∃ n, n ≤ rs.length ∧ W ≤ dm d + (rs.take n).count (.val d) ∧
        ∀ m < n, (∀ x, dm x + (rs.take m).count (.val x) < W) ∧
          (∀ e, em e + (rs.take m).count (.err e) < W) := by
  intro rs
  induction rs with
  | nil =>
    intro dm em d hdm hem h
    simp [getLoop] at h
  | cons a rest ih =>
    intro dm em d hdm hem h
    cases a with
    | val d' =>
      simp only [getLoop] at h
      by_cases hW : W ≤ dm d' + 1
      · rw [if_pos hW] at h
        have hd : d' = d := Except.ok.inj h
        subst hd
        refine ⟨1, by simp, ?_, ?_⟩
        · rw [List.take_succ_cons, List.take_zero, List.count_cons_self]
          simp only [List.count_nil]
          omega
        · intro m hm
          have hm0 : m = 0 := by omega
          subst hm0
          rw [List.take_zero]
          exact ⟨fun x => by simpa using hdm x, fun e => by simpa using hem e⟩
      · rw [if_neg hW] at h
        have hdm' : ∀ x, upd dm d' (dm d' + 1) x < W := by
          intro x
          by_cases hx : x = d'
          · subst hx; rw [upd_same]; omega
          · rw [upd_other _ _ _ _ hx]; exact hdm x
        obtain ⟨n, hn, hreach, hfirst⟩ :=
          ih (upd dm d' (dm d' + 1)) em d hdm' hem h
        refine ⟨n + 1, by simp only [List.length_cons]; omega, ?_, ?_⟩
        · rw [List.take_succ_cons]
          by_cases hdd : d = d'
          · subst hdd
            rw [List.count_cons_self]
            rw [upd_same] at hreach
            omega
          · rw [List.count_cons_of_ne
              (fun hc => hdd (NodeGetRes.val.inj hc))]
            rw [upd_other _ _ _ _ hdd] at hreach
            exact hreach
        · intro m hm
          cases m with
          | zero =>
            rw [List.take_zero]
            exact ⟨fun x => by simpa using hdm x, fun e => by simpa using hem e⟩
          | succ m' =>
            have hm' : m' < n := by omega
            obtain ⟨h1, h2⟩ := hfirst m' hm'
            constructor
            · intro x
              rw [List.take_succ_cons]
              by_cases hx : x = d'
              · subst hx
                have h1' := h1 x
                rw [upd_same] at h1'
                rw [List.count_cons_self]
                omega
              · have h1' := h1 x
                rw [upd_other _ _ _ _ hx] at h1'
                rw [List.count_cons_of_ne
                  (fun hc => hx (NodeGetRes.val.inj hc))]
                exact h1'
            · intro e
              rw [List.take_succ_cons, List.count_cons_of_ne
                (fun hc => NodeGetRes.noConfusion hc)]
              exact h2 e
    | err e' =>
      simp only [getLoop] at h
      by_cases hW : W ≤ em e' + 1
      · rw [if_pos hW] at h
        exact absurd h (fun hc => Except.noConfusion hc)
      · rw [if_neg hW] at h
        have hem' : ∀ e, upd em e' (em e' + 1) e < W := by
          intro e
          by_cases he : e = e'
          · subst he; rw [upd_same]; omega
          · rw [upd_other _ _ _ _ he]; exact hem e
        obtain ⟨n, hn, hreach, hfirst⟩ :=
          ih dm (upd em e' (em e' + 1)) d hdm hem' h
        refine ⟨n + 1, by simp only [List.length_cons]; omega, ?_, ?_⟩
        · rw [List.take_succ_cons, List.count_cons_of_ne
            (fun hc => NodeGetRes.noConfusion hc)]
          exact hreach
        · intro m hm
          cases m with
          | zero =>
            rw [List.take_zero]
            exact ⟨fun x => by simpa using hdm x, fun e => by simpa using hem e⟩
          | succ m' =>
            have hm' : m' < n := by omega
            obtain ⟨h1, h2⟩ := hfirst m' hm'
            constructor
            · intro x
              rw [List.take_succ_cons, List.count_cons_of_ne
                (fun hc => NodeGetRes.noConfusion hc)]
              exact h1 x
            · intro e
              rw [List.take_succ_cons]
              by_cases he : e = e'
              · subst he
                have h2' := h2 e
                rw [upd_same] at h2'
                rw [List.count_cons_self]
                omega
              · have h2' := h2 e
                rw [upd_other _ _ _ _ he] at h2'
                rw [List.count_cons_of_ne
                  (fun hc => he (NodeGetRes.err.inj hc))]
                exact h2'

/-- If the aggregation loop answers error `e`, then either `e` was the
first error/content key to reach the threshold, or the results ran out
with every count still below the threshold and `e` is
`ErrQuorumNotReached`. -/
theorem getLoop_error_first (W : Nat) :
    ∀ (rs : List NodeGetRes) (dm : Data → Nat) (em : Err → Nat) (e : Err),
      (∀ x, dm x < W) → (∀ e', em e' < W) → getLoop W dm em rs = .error e →
      (∃ n, n ≤ rs.length ∧ W ≤ em e + (rs.take n).count (.err e) ∧
        ∀ m < n, (∀ x, dm x + (rs.take m).count (.val x) < W) ∧
          (∀ e', em e' + (rs.take m).count (.err e') < W)) ∨
      (e = .quorumNotReached ∧ (∀ x, dm x + rs.count (.val x) < W) ∧
        (∀ e', em e' + rs.count (.err e') < W)) := by
  intro rs
  induction rs with
  | nil =>
    intro dm em e hdm hem h
    simp only [getLoop, Except.error.injEq] at h
    refine Or.inr ⟨h.symm, ?_, ?_⟩
    · intro x; simpa using hdm x
    · intro e'; simpa using hem e'
  | cons a rest ih =>
    intro dm em e hdm hem h
    cases a with
    | val d' =>
      simp only [getLoop] at h
      by_cases hW : W ≤ dm d' + 1
      · rw [if_pos hW] at h
        exact absurd h (fun hc => Except.noConfusion hc)
      · rw [if_neg hW] at h
        have hdm' : ∀ x, upd dm d' (dm d' + 1) x < W := by
          intro x
          by_cases hx : x = d'
          · subst hx; rw [upd_same]; omega
          · rw [upd_other _ _ _ _ hx]; exact hdm x
        rcases ih (upd dm d' (dm d' + 1)) em e hdm' hem h with
          ⟨n, hn, hreach, hfirst⟩ | ⟨heq, hv, he⟩
        · refine Or.inl ⟨n + 1, by simp only [List.length_cons]; omega, ?_, ?_⟩
          · rw [List.take_succ_cons, List.count_cons_of_ne
              (fun hc => NodeGetRes.noConfusion hc)]
            exact hreach
          · intro m hm
            cases m with
            | zero =>
              rw [List.take_zero]
              exact ⟨fun x => by simpa using hdm x,
                fun e' => by simpa using hem e'⟩
            | succ m' =>
              have hm' : m' < n := by omega
              obtain ⟨h1, h2⟩ := hfirst m' hm'
              constructor
              · intro x
                rw [List.take_succ_cons]
                by_cases hx : x = d'
                · subst hx
                  have h1' := h1 x
                  rw [upd_same] at h1'
                  rw [List.count_cons_self]
                  omega
                · have h1' := h1 x
                  rw [upd_other _ _ _ _ hx] at h1'
                  rw [List.count_cons_of_ne
                    (fun hc => hx (NodeGetRes.val.inj hc))]
                  exact h1'
              · intro e'
                rw [List.take_succ_cons, List.count_cons_of_ne
                  (fun hc => NodeGetRes.noConfusion hc)]
                exact h2 e'
        · refine Or.inr ⟨heq, ?_, ?_⟩
          · intro x
            by_cases hx : x = d'
            · subst hx
              have := hv x
              rw [upd_same] at this
              rw [List.count_cons_self]
              omega
            · have := hv x
              rw [upd_other _ _ _ _ hx] at this
              rw [List.count_cons_of_ne
                (fun hc => hx (NodeGetRes.val.inj hc))]
              exact this
          · intro e'
            rw [List.count_cons_of_ne (fun hc => NodeGetRes.noConfusion hc)]
            exact he e'
    | err e' =>
      simp only [getLoop] at h
      by_cases hW : W ≤ em e' + 1
      · rw [if_pos hW] at h
        have he' : e' = e := Except.error.inj h
        subst he'
        refine Or.inl ⟨1, by simp, ?_, ?_⟩
        · rw [List.take_succ_cons, List.take_zero, List.count_cons_self]
          simp only [List.count_nil]
          omega
        · intro m hm
          have hm0 : m = 0 := by omega
          subst hm0
          rw [List.take_zero]
          exact ⟨fun x => by simpa using hdm x, fun e'' => by simpa using hem e''⟩
      · rw [if_neg hW] at h
        have hem' : ∀ e'', upd em e' (em e' + 1) e'' < W := by
          intro e''
          by_cases he : e'' = e'
          · subst he; rw [upd_same]; omega
          · rw [upd_other _ _ _ _ he]; exact hem e''
        rcases ih dm (upd em e' (em e' + 1)) e hdm hem' h with
          ⟨n, hn, hreach, hfirst⟩ | ⟨heq, hv, he⟩
        · refine Or.inl ⟨n + 1, by simp only [List.length_cons]; omega, ?_, ?_⟩
          · rw [List.take_succ_cons]
            by_cases hee : e = e'
            · subst hee
              rw [upd_same] at hreach
              rw [List.count_cons_self]
              omega
            · rw [upd_other _ _ _ _ hee] at hreach
              rw [List.count_cons_of_ne
                (fun hc => hee (NodeGetRes.err.inj hc))]
              exact hreach
          · intro m hm
            cases m with
            | zero =>
              rw [List.take_zero]
              exact ⟨fun x => by simpa using hdm x,
                fun e'' => by simpa using hem e''⟩
            | succ m' =>
              have hm' : m' < n := by omega
              obtain ⟨h1, h2⟩ := hfirst m' hm'
              constructor
              · intro x
                rw [List.take_succ_cons, List.count_cons_of_ne
                  (fun hc => NodeGetRes.noConfusion hc)]
                exact h1 x
              · intro e''
                rw [List.take_succ_cons]
                by_cases hee : e'' = e'
                · subst hee
                  have h2' := h2 e''
                  rw [upd_same] at h2'
                  rw [List.count_cons_self]
                  omega
                · have h2' := h2 e''
                  rw [upd_other _ _ _ _ hee] at h2'
                  rw [List.count_cons_of_ne
                    (fun hc => hee (NodeGetRes.err.inj hc))]
                  exact h2'
        · refine Or.inr ⟨heq, ?_, ?_⟩
          · intro x
            rw [List.count_cons_of_ne (fun hc => NodeGetRes.noConfusion hc)]
            exact hv x
          · intro e''
            by_cases hee : e'' = e'
            · subst hee
              have := he e''
              rw [upd_same] at this
              rw [List.count_cons_self]
              omega
            · have := he e''
              rw [upd_other _ _ _ _ hee] at this
              rw [List.count_cons_of_ne
                (fun hc => hee (NodeGetRes.err.inj hc))]
              exact this

/-- If no content count and no error count ever reaches the threshold,
the aggregation loop falls through to `ErrQuorumNotReached`. -/
theorem getLoop_all_below (W : Nat) :
    ∀ (rs : List NodeGetRes) (dm : Data → Nat) (em : Err → Nat),
      (∀ x, dm x + rs.count (.val x) < W) →
      (∀ e, em e + rs.count (.err e) < W) →
      getLoop W dm em rs = .error .quorumNotReached := by
  intro rs
  induction rs with
  | nil =>
    intro dm em _ _
    simp [getLoop]
  | cons a rest ih =>
    intro dm em hdm hem
    cases a with
    | val d' =>
      have hc := hdm d'
      rw [List.count_cons_self] at hc
      simp only [getLoop]
      rw [if_neg (by omega)]
      apply ih
      · intro x
        by_cases hx : x = d'
        · subst hx
          rw [upd_same]
          omega
        · rw [upd_other _ _ _ _ hx]
          have := hdm x
          rw [List.count_cons_of_ne
            (fun hcc => hx (NodeGetRes.val.inj hcc))] at this
          exact this
      · intro e
        have := hem e
        rw [List.count_cons_of_ne
          (fun hcc => NodeGetRes.noConfusion hcc)] at this
        exact this
    | err e' =>
      have hc := hem e'
      rw [List.count_cons_self] at hc
      simp only [getLoop]
      rw [if_neg (by omega)]
      apply ih
      · intro x
        have := hdm x
        rw [List.count_cons_of_ne
          (fun hcc => NodeGetRes.noConfusion hcc)] at this
        exact this
      · intro e
        by_cases he : e = e'
        · subst he
          rw [upd_same]
          omega
        · rw [upd_other _ _ _ _ he]
          have := hem e
          rw [List.count_cons_of_ne
            (fun hcc => he (NodeGetRes.err.inj hcc))] at this
          exact this

/-- Claim C2: the `Get` aggregation over the per-node results in arrival
order returns the first byte content whose success count reaches
`MinRedundancy`, returns the first error whose count reaches
`MinRedundancy`, and fails with `ErrQuorumNotReached` when all responses
arrive with every count below the threshold; in particular, with five
results of which three carry content `[1]` and two content `[2]` and
`W = 3`, it returns `[1]` for every arrival order. -/
theorem get_aggregation_quorum (W : Nat) (rs : List NodeGetRes)
    (hW : 1 ≤ W) :
    (∀ d, getAggregate W rs = .ok d →
      ∃ n, n ≤ rs.length ∧ W ≤ (rs.take n).count (.val d) ∧
        ∀ m < n, (∀ x, (rs.take m).count (.val x) < W) ∧
          (∀ e, (rs.take m).count (.err e) < W)) ∧
    (∀ e, getAggregate W rs = .error e →
      (∃ n, n ≤ rs.length ∧ W ≤ (rs.take n).count (.err e) ∧
        ∀ m < n, (∀ x, (rs.take m).count (.val x) < W) ∧
          (∀ e', (rs.take m).count (.err e') < W)) ∨
      (e = .quorumNotReached ∧ (∀ x, rs.count (.val x) < W) ∧
        (∀ e', rs.count (.err e') < W))) ∧
    ((∀ x, rs.count (.val x) < W) → (∀ e, rs.count (.err e) < W) →
      getAggregate W rs = .error .quorumNotReached) ∧
    (∀ l : List NodeGetRes,
      l.Perm [.val [1], .val [1], .val [1], .val [2], .val [2]] →
      getAggregate 3 l = .ok [1]) := by
  refine ⟨?_, ?_, ?_, ?_⟩
  · intro d h
    unfold getAggregate at h
    obtain ⟨n, hn, hr, hf⟩ := getLoop_ok_first W rs (fun _ => 0) (fun _ => 0)
      d (fun _ => by show (0 : Nat) < W; omega)
      (fun _ => by show (0 : Nat) < W; omega) h
    exact ⟨n, hn, by simpa using hr, fun m hm =>
      ⟨fun x => by simpa using (hf m hm).1 x,
       fun e => by simpa using (hf m hm).2 e⟩⟩
  · intro e h
    unfold getAggregate at h
    rcases getLoop_error_first W rs (fun _ => 0) (fun _ => 0) e
      (fun _ => by show (0 : Nat) < W; omega)
      (fun _ => by show (0 : Nat) < W; omega) h with
      ⟨n, hn, hr, hf⟩ | ⟨heq, hv, he⟩
    · exact Or.inl ⟨n, hn, by simpa using hr, fun m hm =>
        ⟨fun x => by simpa using (hf m hm).1 x,
         fun e' => by simpa using (hf m hm).2 e'⟩⟩
    · exact Or.inr ⟨heq, fun x => by simpa using hv x,
        fun e' => by simpa using he e'⟩
  · intro h1 h2
    unfold getAggregate
    exact getLoop_all_below W rs _ _ (fun x => by simpa using h1 x)
      (fun e => by simpa using h2 e)
  · intro l hp
    have hcv1 : l.count (NodeGetRes.val [1]) = 3 := by
      rw [perm_count_eq hp]
      decide
    cases hres : getAggregate 3 l with
    | ok d =>
      have hres' : getLoop 3 (fun _ => 0) (fun _ => 0) l = Except.ok d := hres
      obtain ⟨n, hn, hr, -⟩ := getLoop_ok_first 3 l (fun _ => 0) (fun _ => 0)
        d (fun _ => by show (0 : Nat) < 3; omega)
        (fun _ => by show (0 : Nat) < 3; omega) hres'
      have htake : (l.take n).count (.val d) ≤ l.count (.val d) :=
        (List.take_sublist n l).count_le _
      have hle : (3 : Nat) ≤ l.count (.val d) := by
        have := hr
        simp only [Nat.zero_add] at this
        omega
      have hmem : NodeGetRes.val d ∈ l := List.count_pos_iff.mp (by omega)
      have hmem' := hp.mem_iff.mp hmem
      simp only [List.mem_cons, List.not_mem_nil, or_false,
        NodeGetRes.val.injEq] at hmem'
      have hd : d = [1] ∨ d = [2] := by
        rcases hmem' with h | h | h | h | h
        · exact Or.inl h
        · exact Or.inl h
        · exact Or.inl h
        · exact Or.inr h
        · exact Or.inr h
      rcases hd with h1 | h2
      · rw [← h1]
      · exfalso
        subst h2
        rw [perm_count_eq hp] at hle
        have hc2 : List.count (NodeGetRes.val [2])
            [NodeGetRes.val [1], .val [1], .val [1], .val [2], .val [2]] = 2 := by
          decide
        omega
    | error e =>
      exfalso
      have hres' : getLoop 3 (fun _ => 0) (fun _ => 0) l = Except.error e := hres
      rcases getLoop_error_first 3 l (fun _ => 0) (fun _ => 0) e
        (fun _ => by show (0 : Nat) < 3; omega)
        (fun _ => by show (0 : Nat) < 3; omega) hres' with
        ⟨n, hn, hr, -⟩ | ⟨-, hv, -⟩
      · have htake : (l.take n).count (.err e) ≤ l.count (.err e) :=
          (List.take_sublist n l).count_le _
        have hle : (3 : Nat) ≤ l.count (.err e) := by
          have := hr
          simp only [Nat.zero_add] at this
          omega
        have hmem : NodeGetRes.err e ∈ l := List.count_pos_iff.mp (by omega)
        have hmem' := hp.mem_iff.mp hmem
        simp at hmem'
      · have := hv [1]
        simp only [Nat.zero_add] at this
        omega

/-- Claim C2 witness: the canonical arrival order of the three-`[1]`,
two-`[2]` scenario with `W = 3` yields `[1]`. -/
theorem get_aggregation_quorum_witness :
    getAggregate 3 [.val [1], .val [1], .val [1], .val [2], .val [2]] =
      .ok [1] :=
  (get_aggregation_quorum 3
    [.val [1], .val [1], .val [1], .val [2], .val [2]]
    (by decide)).2.2.2 _ (List.Perm.refl _)

end DDSP
